import Mathlib

/-!
Verification of the generalized Ising annealer core
(`Project_4_Ising_Annealer/Task_3.ipynb`): the Hamiltonian model and its
energy evaluator, the single-spin-flip energy difference, the exponential
annealing schedule, and the exhaustive ground-state scan.

Numeric values (numpy floats) are modelled by `ℚ`; the real-exponent
annealing schedule is modelled over `ℝ`.  Mutation of `self.spins` is
modelled by explicit state passing; the numpy `IndexError` / `ValueError`
exceptions are modelled by `Option` / `Except`.
-/

/-- The class `GeneralizedIsingModel`: the Hamiltonian coefficients
`E0, h, J, K, L`, the spin count `N`, and the spin configuration `spins`
(a numpy array of `N` values in `{-1, +1}`, mutated in place by the source).
Coefficient tensors are modelled as total functions on indices (the dense
numpy arrays, read only at indices below `N`); the alias field `num_spins`,
which `__init__` always sets equal to `N`, is modelled by `N` itself. -/
structure GeneralizedIsingModel where
  E0 : ℚ
  h : ℕ → ℚ
  J : ℕ → ℕ → ℚ
  K : ℕ → ℕ → ℕ → ℚ
  L : ℕ → ℕ → ℕ → ℕ → ℚ
  N : ℕ
  spins : List ℚ

/-- The value `self.spins[t]` for an in-range index `t` (out-of-range reads
never occur in the translated code paths; the default `0` is junk). -/
def spinVal (m : GeneralizedIsingModel) (t : ℕ) : ℚ :=
  m.spins.getD t 0

/-- The method `GeneralizedIsingModel.energy`: the energy of the current spin
configuration, computed by the four nested `for` loops of the source over
`range(0, N)`, accumulating `tot_h`, `tot_J`, `tot_K`, `tot_L`, and
returning `E0 + tot_h + tot_J + tot_K + tot_L`. -/
def energy (m : GeneralizedIsingModel) : ℚ :=
  let tots : ℚ × ℚ × ℚ × ℚ :=
    (List.range m.N).foldl (fun a i =>
      (List.range m.N).foldl (fun a j =>
        (List.range m.N).foldl (fun a k =>
          (List.range m.N).foldl (fun a l =>
            (a.1, a.2.1, a.2.2.1,
              a.2.2.2 + m.L i j k l * (spinVal m i * spinVal m j * spinVal m k * spinVal m l)))
            (a.1, a.2.1, a.2.2.1 + m.K i j k * (spinVal m i * spinVal m j * spinVal m k),
              a.2.2.2))
          (a.1, a.2.1 + m.J i j * (spinVal m i * spinVal m j), a.2.2.1, a.2.2.2))
        (a.1 + m.h i * spinVal m i, a.2.1, a.2.2.1, a.2.2.2))
      (0, 0, 0, 0)
  m.E0 + tots.1 + tots.2.1 + tots.2.2.1 + tots.2.2.2

/-- The reference energy formula of the specification:
`E0 + Σ_i h[i]·s[i] + Σ_i Σ_j J[i,j]·s[i]·s[j]
 + Σ_i Σ_j Σ_k K[i,j,k]·s[i]·s[j]·s[k]
 + Σ_i Σ_j Σ_k Σ_l L[i,j,k,l]·s[i]·s[j]·s[k]·s[l]`,
every index ranging over all of `[0, N)` independently (repeated index
tuples included, no de-duplication or symmetrization). -/
def energyFormula (m : GeneralizedIsingModel) : ℚ :=
  m.E0 + (∑ i in Finset.range m.N, m.h i * spinVal m i)
    + (∑ i in Finset.range m.N, ∑ j in Finset.range m.N,
        m.J i j * (spinVal m i * spinVal m j))
    + (∑ i in Finset.range m.N, ∑ j in Finset.range m.N, ∑ k in Finset.range m.N,
        m.K i j k * (spinVal m i * spinVal m j * spinVal m k))
    + (∑ i in Finset.range m.N, ∑ j in Finset.range m.N, ∑ k in Finset.range m.N,
        ∑ l in Finset.range m.N,
        m.L i j k l * (spinVal m i * spinVal m j * spinVal m k * spinVal m l))

lemma foldL4 (n : ℕ) (f : ℕ → ℚ) (a : ℚ × ℚ × ℚ × ℚ) :
    (List.range n).foldl
      (fun a l => (a.1, a.2.1, a.2.2.1, a.2.2.2 + f l)) a
      = (a.1, a.2.1, a.2.2.1, a.2.2.2 + ∑ l in Finset.range n, f l) := by
  induction n generalizing a with
  | zero => simp
  | succ k ih =>
    rw [List.range_succ, List.foldl_append, ih]
    simp [Finset.sum_range_succ, add_assoc]

lemma foldL3 (nk nl : ℕ) (g : ℕ → ℚ) (f : ℕ → ℕ → ℚ) (a : ℚ × ℚ × ℚ × ℚ) :
    (List.range nk).foldl
      (fun a k =>
        (List.range nl).foldl
          (fun a l => (a.1, a.2.1, a.2.2.1, a.2.2.2 + f k l))
          (a.1, a.2.1, a.2.2.1 + g k, a.2.2.2)) a
      = (a.1, a.2.1, a.2.2.1 + ∑ k in Finset.range nk, g k,
         a.2.2.2 + ∑ k in Finset.range nk, ∑ l in Finset.range nl, f k l) := by
  induction nk generalizing a with
  | zero => simp
  | succ k ih =>
    rw [List.range_succ, List.foldl_append, ih]
    simp [foldL4, Finset.sum_range_succ, add_assoc]

lemma foldL2 (nj nk nl : ℕ) (gJ : ℕ → ℚ) (gK : ℕ → ℕ → ℚ) (gL : ℕ → ℕ → ℕ → ℚ)
    (a : ℚ × ℚ × ℚ × ℚ) :
    (List.range nj).foldl
      (fun a j =>
        (List.range nk).foldl
          (fun a k =>
            (List.range nl).foldl
              (fun a l => (a.1, a.2.1, a.2.2.1, a.2.2.2 + gL j k l))
              (a.1, a.2.1, a.2.2.1 + gK j k, a.2.2.2))
          (a.1, a.2.1 + gJ j, a.2.2.1, a.2.2.2)) a
      = (a.1, a.2.1 + ∑ j in Finset.range nj, gJ j,
         a.2.2.1 + ∑ j in Finset.range nj, ∑ k in Finset.range nk, gK j k,
         a.2.2.2 + ∑ j in Finset.range nj, ∑ k in Finset.range nk,
           ∑ l in Finset.range nl, gL j k l) := by
  induction nj generalizing a with
  | zero => simp
  | succ j ih =>
    rw [List.range_succ, List.foldl_append, ih]
    simp [foldL3, Finset.sum_range_succ, add_assoc]

lemma foldL1 (ni nj nk nl : ℕ) (gh : ℕ → ℚ) (gJ : ℕ → ℕ → ℚ) (gK : ℕ → ℕ → ℕ → ℚ)
    (gL : ℕ → ℕ → ℕ → ℕ → ℚ) (a : ℚ × ℚ × ℚ × ℚ) :
    (List.range ni).foldl
      (fun a i =>
        (List.range nj).foldl
          (fun a j =>
            (List.range nk).foldl
              (fun a k =>
                (List.range nl).foldl
                  (fun a l => (a.1, a.2.1, a.2.2.1, a.2.2.2 + gL i j k l))
                  (a.1, a.2.1, a.2.2.1 + gK i j k, a.2.2.2))
              (a.1, a.2.1 + gJ i j, a.2.2.1, a.2.2.2))
          (a.1 + gh i, a.2.1, a.2.2.1, a.2.2.2)) a
      = (a.1 + ∑ i in Finset.range ni, gh i,
         a.2.1 + ∑ i in Finset.range ni, ∑ j in Finset.range nj, gJ i j,
         a.2.2.1 + ∑ i in Finset.range ni, ∑ j in Finset.range nj,
           ∑ k in Finset.range nk, gK i j k,
         a.2.2.2 + ∑ i in Finset.range ni, ∑ j in Finset.range nj,
           ∑ k in Finset.range nk, ∑ l in Finset.range nl, gL i j k l) := by
  induction ni generalizing a with
  | zero => simp
  | succ i ih =>
    rw [List.range_succ, List.foldl_append, ih]
    simp [foldL2, Finset.sum_range_succ, add_assoc]

/-- The loop-accumulator implementation of `energy` agrees with the full
independent-index summation formula.  Shared helper, used both by the claim
about the formula itself and by the symmetry arguments. -/
lemma energy_eq_sums (m : GeneralizedIsingModel) : energy m = energyFormula m := by
  unfold energy energyFormula
  rw [foldL1 m.N m.N m.N m.N
    (fun i => m.h i * spinVal m i)
    (fun i j => m.J i j * (spinVal m i * spinVal m j))
    (fun i j k => m.K i j k * (spinVal m i * spinVal m j * spinVal m k))
    (fun i j k l => m.L i j k l * (spinVal m i * spinVal m j * spinVal m k * spinVal m l))
    (0, 0, 0, 0)]
  simp

/-- C1: for every `GeneralizedIsingModel` whose spin configuration has the
declared length `N` and entries in `{-1, +1}`, `energy` returns
`E0 + Σ_i h[i]·s[i] + Σ_ij J[i,j]·s[i]·s[j] + Σ_ijk K[i,j,k]·s[i]·s[j]·s[k]
 + Σ_ijkl L[i,j,k,l]·s[i]·s[j]·s[k]·s[l]`, each index ranging over all of
`[0, N)` independently (repeated index tuples included, no de-duplication
or symmetrization). -/
theorem energy_eq_formula (m : GeneralizedIsingModel)
    (hlen : m.spins.length = m.N)
    (hpm : ∀ i, i < m.N → spinVal m i = 1 ∨ spinVal m i = -1) :
    energy m = energyFormula m :=
  energy_eq_sums m

/-- Witness for C1 at a concrete 2-spin model. -/
theorem energy_eq_formula_witness :
    ∃ m : GeneralizedIsingModel,
      m.spins.length = m.N ∧ (∀ i, i < m.N → spinVal m i = 1 ∨ spinVal m i = -1) ∧
      energy m = energyFormula m := by
  refine ⟨{ E0 := 5, h := fun i => (i : ℚ) + 1, J := fun i j => (i : ℚ) - (j : ℚ),
            K := fun _ _ _ => 2, L := fun _ _ _ _ => 3, N := 2, spins := [1, -1] },
          by decide, ?_, ?_⟩
  · intro i hi
    interval_cases i
    · left; rfl
    · right; rfl
  · exact energy_eq_formula _ (by decide)
      (by intro i hi; interval_cases i
          · left; rfl
          · right; rfl)

lemma getD_set_self (l : List ℚ) (p : ℕ) (x : ℚ) (hp : p < l.length) :
    (l.set p x).getD p 0 = x := by
  induction l generalizing p with
  | nil => simp at hp
  | cons a t ih =>
    cases p with
    | zero => rfl
    | succ q => simpa using ih q (by simpa using hp)

lemma set_getD_self (l : List ℚ) (p : ℕ) (hp : p < l.length) :
    l.set p (l.getD p 0) = l := by
  induction l generalizing p with
  | nil => simp at hp
  | cons a t ih =>
    cases p with
    | zero => rfl
    | succ q => simpa using ih q (by simpa using hp)

/-- Resolution of a Python integer index into a numpy array of length `n`:
indices in `[0, n)` address directly, indices in `[-n, 0)` address from the
end (position `n + i`), and anything else raises `IndexError` (modelled as
`none`).  This is the indexing rule applied by `self.spins[i]`. -/
def pyIndex (n : ℕ) (i : ℤ) : Option ℕ :=
  if 0 ≤ i ∧ i < (n : ℤ) then some i.toNat
  else if -(n : ℤ) ≤ i ∧ i < 0 then some (i + (n : ℤ)).toNat
  else none

/-- The method `GeneralizedIsingModel.energy_diff`: computes `e1 = self.energy()`,
temporarily flips spin `i` (`self.spins[i] = (-1)*self.spins[i]`), computes
`e2 = self.energy()`, reverts the flip the same way, and returns `e2 - e1`
together with the model state after the call.  The site argument is a Python
integer resolved by numpy indexing (`pyIndex`, resolving to the same
position for both assignments); an out-of-range index raises `IndexError`,
modelled as `none`. -/
def energy_diff (m : GeneralizedIsingModel) (i : ℤ) :
    Option (ℚ × GeneralizedIsingModel) :=
  match pyIndex m.spins.length i with
  | none => none
  | some p =>
    let e1 := energy m
    let m1 := { m with spins := m.spins.set p ((-1) * m.spins.getD p 0) }
    let e2 := energy m1
    let m2 := { m1 with spins := m1.spins.set p ((-1) * m1.spins.getD p 0) }
    (e2 - e1, m2)

lemma pyIndex_coe (n : ℕ) (i : ℕ) (hi : i < n) : pyIndex n (i : ℤ) = some i := by
  unfold pyIndex
  rw [if_pos ⟨Int.ofNat_nonneg i, by exact_mod_cast hi⟩]
  simp

/-- C3: for every model, every spin configuration of the declared length,
and every site index `i` in `[0, N)`, the value returned by `energy_diff`
is exactly `energy` of the configuration with entry `i` negated minus
`energy` of the current configuration (exact equality in the rational
model; the two full energies are evaluated independently and subtracted). -/
theorem energy_diff_is_difference (m : GeneralizedIsingModel) (i : ℕ)
    (hlen : m.spins.length = m.N) (hi : i < m.N) :
    (energy_diff m (i : ℤ)).map Prod.fst
      = some (energy { m with spins := m.spins.set i (-(m.spins.getD i 0)) }
              - energy m) := by
  have hp : pyIndex m.spins.length (i : ℤ) = some i :=
    pyIndex_coe _ _ (by omega)
  simp only [energy_diff, hp, Option.map_some', neg_one_mul]

/-- Witness for C3 at a concrete 2-spin model and site `0`. -/
theorem energy_diff_is_difference_witness :
    ∃ m : GeneralizedIsingModel, m.spins.length = m.N ∧ 0 < m.N ∧
      (energy_diff m (0 : ℤ)).map Prod.fst
        = some (energy { m with spins := m.spins.set 0 (-(m.spins.getD 0 0)) }
                - energy m) := by
  refine ⟨{ E0 := 0, h := fun _ => 1, J := fun _ _ => 2, K := fun _ _ _ => 0,
            L := fun _ _ _ _ => 0, N := 2, spins := [1, -1] }, by decide, by decide, ?_⟩
  exact energy_diff_is_difference _ 0 (by decide) (by decide)

/-- C4: for every model, every spin configuration of the declared length,
and every site index `i` in `[0, N)`, the model state after `energy_diff`
returns is exactly the state before the call: the temporary flip is always
reverted. -/
theorem energy_diff_restores_spins (m : GeneralizedIsingModel) (i : ℕ)
    (hlen : m.spins.length = m.N) (hi : i < m.N) :
    (energy_diff m (i : ℤ)).map Prod.snd = some m := by
  have hil : i < m.spins.length := by omega
  have hp : pyIndex m.spins.length (i : ℤ) = some i := pyIndex_coe _ _ hil
  simp only [energy_diff, hp, Option.map_some']
  have h1 : (m.spins.set i ((-1) * m.spins.getD i 0)).getD i 0
      = (-1) * m.spins.getD i 0 :=
    getD_set_self _ _ _ hil
  have h2 : ((-1 : ℚ)) * ((-1) * m.spins.getD i 0) = m.spins.getD i 0 := by ring
  rw [h1, h2, List.set_set, set_getD_self _ _ hil]

/-- Witness for C4 at a concrete 2-spin model and site `1`. -/
theorem energy_diff_restores_spins_witness :
    ∃ m : GeneralizedIsingModel, m.spins.length = m.N ∧ 1 < m.N ∧
      (energy_diff m (1 : ℤ)).map Prod.snd = some m := by
  refine ⟨{ E0 := 3, h := fun _ => 1, J := fun _ _ => 2, K := fun _ _ _ => 1,
            L := fun _ _ _ _ => 1, N := 2, spins := [-1, 1] }, by decide, by decide, ?_⟩
  exact energy_diff_restores_spins _ 1 (by decide) (by decide)

/-- A concrete 2-spin model with unequal field coefficients, used to
exercise the index handling of `energy_diff`. -/
def mIdx : GeneralizedIsingModel :=
  { E0 := 0, h := fun i => if i = 0 then 1 else 2, J := fun _ _ => 0,
    K := fun _ _ _ => 0, L := fun _ _ _ _ => 0, N := 2, spins := [1, 1] }

/-- C8 counterexample: the out-of-range site `-1` passed to `energy_diff`
does not raise any error; numpy negative indexing silently resolves it to
site `N - 1 = 1` and the delta `-4` is computed and returned. -/
theorem energy_diff_negative_index_cex :
    (energy_diff mIdx (-1)).map Prod.fst = some (-4)
      ∧ (energy_diff mIdx (-1)).isSome = true := by
  have hp : pyIndex mIdx.spins.length (-1) = some 1 := by decide
  constructor
  · simp only [energy_diff, hp, Option.map_some']
    norm_num [energy, spinVal, mIdx, List.range_succ]
  · decide

/-- C8 as amended: `energy_diff` performs no eager bounds check.  A site in
`[-N, N)` is accepted: it succeeds, and a negative site `i` is silently
interpreted as site `N + i` (numpy wraparound), producing the same result
as the in-range call.  Only sites outside `[-N, N)` fail, with the
`IndexError` coming from the array access itself (modelled as `none`),
not from a `DomainError` raised at the API boundary. -/
theorem energy_diff_index_semantics (m : GeneralizedIsingModel) (i : ℤ)
    (hlen : m.spins.length = m.N) :
    ((energy_diff m i).isSome ↔ (-(m.N : ℤ) ≤ i ∧ i < (m.N : ℤ)))
      ∧ (-(m.N : ℤ) ≤ i → i < 0 → energy_diff m i = energy_diff m (i + (m.N : ℤ))) := by
  constructor
  · unfold energy_diff pyIndex
    rw [hlen]
    by_cases h1 : 0 ≤ i ∧ i < (m.N : ℤ)
    · rw [if_pos h1]
      simp only [Option.isSome_some, true_iff]
      omega
    · rw [if_neg h1]
      by_cases h2 : -(m.N : ℤ) ≤ i ∧ i < 0
      · rw [if_pos h2]
        simp only [Option.isSome_some, true_iff]
        omega
      · rw [if_neg h2]
        simp only [Option.isSome_none, Bool.false_eq_true, false_iff]
        omega
  · intro hge hneg
    have h1 : pyIndex m.spins.length i = some (i + (m.N : ℤ)).toNat := by
      unfold pyIndex
      rw [hlen, if_neg (by omega), if_pos ⟨hge, hneg⟩]
    have h2 : pyIndex m.spins.length (i + (m.N : ℤ)) = some (i + (m.N : ℤ)).toNat := by
      unfold pyIndex
      rw [hlen, if_pos ⟨by omega, by omega⟩]
    unfold energy_diff
    rw [h1, h2]

/-- Witness for the amended C8 at the concrete model `mIdx` and site `-1`. -/
theorem energy_diff_index_semantics_witness :
    ((energy_diff mIdx (-1)).isSome ↔ (-((mIdx.N : ℤ)) ≤ -1 ∧ (-1 : ℤ) < (mIdx.N : ℤ)))
      ∧ (-((mIdx.N : ℤ)) ≤ -1 → (-1 : ℤ) < 0 →
          energy_diff mIdx (-1) = energy_diff mIdx (-1 + (mIdx.N : ℤ))) :=
  energy_diff_index_semantics mIdx (-1) (by decide)

/-- Errors raised by the Python runtime / numpy in the translated
constructor paths. -/
inductive PyError where
  | valueError
  | indexError
deriving DecidableEq

/-- The raw state stored by `GeneralizedIsingModel.__init__`: the coefficient
containers exactly as passed in (here kept as nested lists so that their
extents can disagree with `N`), the alias `num_spins`, and the freshly drawn
spin configuration. -/
structure RawGeneralizedIsingModel where
  E0 : ℚ
  h : List ℚ
  J : List (List ℚ)
  K : List (List (List ℚ))
  L : List (List (List (List ℚ)))
  N : ℤ
  num_spins : ℤ
  spins : List ℚ
deriving DecidableEq

/-- The constructor `GeneralizedIsingModel.__init__`: stores `E0, h, J, K, L, N` unchanged,
sets `num_spins = N`, and initializes `spins = 2*(np.random.rand(N) < 0.5) - 1`
with `rand` modelling the stream of uniform samples in `[0, 1)`.  No size or
positivity validation is performed; the only failure is numpy's `ValueError`
when `N < 0` is passed as a dimension to `np.random.rand`. -/
def ising_init (E0 : ℚ) (h : List ℚ) (J : List (List ℚ)) (K : List (List (List ℚ)))
    (L : List (List (List (List ℚ)))) (N : ℤ) (rand : ℕ → ℚ) :
    Except PyError RawGeneralizedIsingModel :=
  if N < 0 then .error .valueError
  else .ok { E0 := E0, h := h, J := J, K := K, L := L, N := N, num_spins := N,
             spins := (List.range N.toNat).map fun t => if rand t < 1/2 then 1 else -1 }

/-- C9 counterexample: constructing a model with `N = 0 ≤ 0` and a 1-body
tensor of extent `1 ≠ N` succeeds (`.ok`), with the inconsistent tensor
stored as passed; no `ConfigurationError` is raised at construction time. -/
theorem ising_init_no_validation_cex :
    ising_init 0 [3] [] [] [] 0 (fun _ => 0)
      = .ok { E0 := 0, h := [3], J := [], K := [], L := [], N := 0,
              num_spins := 0, spins := [] } := by
  rfl

/-- C9 as amended: `__init__` validates nothing.  For every choice of
coefficient containers (of any extents) and every `N ≥ 0` — including
`N = 0` — construction succeeds and stores the arguments unchanged;
only `N < 0` fails, and then with numpy's `ValueError` from allocating
the random spin vector, not with a `ConfigurationError`. -/
theorem ising_init_always_constructs (E0 : ℚ) (h : List ℚ) (J : List (List ℚ))
    (K : List (List (List ℚ))) (L : List (List (List (List ℚ)))) (N : ℤ)
    (rand : ℕ → ℚ) :
    (0 ≤ N → ising_init E0 h J K L N rand
        = .ok { E0 := E0, h := h, J := J, K := K, L := L, N := N, num_spins := N,
                spins := (List.range N.toNat).map fun t => if rand t < 1/2 then 1 else -1 })
      ∧ (N < 0 → ising_init E0 h J K L N rand = .error .valueError) := by
  constructor
  · intro hN
    rw [ising_init, if_neg (by omega)]
  · intro hN
    rw [ising_init, if_pos hN]

/-- Witness for the amended C9 at concrete arguments with `N = 2`. -/
theorem ising_init_always_constructs_witness :
    (0 ≤ (2 : ℤ)) ∧
      ising_init 7 [1, 2] [[1]] [] [] 2 (fun t => if t = 0 then 0 else 1)
        = .ok { E0 := 7, h := [1, 2], J := [[1]], K := [], L := [], N := 2,
                num_spins := 2,
                spins := (List.range (2 : ℤ).toNat).map
                  fun t => if (if t = 0 then (0 : ℚ) else 1) < 1/2 then 1 else -1 } :=
  ⟨by omega,
   (ising_init_always_constructs 7 [1, 2] [[1]] [] [] 2
      (fun t => if t = 0 then 0 else 1)).1 (by omega)⟩

/-- Row `i` of the source's `space` array:
`space = 2*(((dim[:, None] & (1 << np.arange(num_spins))) > 0).astype(int)) - 1`,
so column `b` of row `i` is `+1` when bit `b` of `i` is set and `-1`
otherwise. -/
def spaceRow (n i : ℕ) : List ℚ :=
  (List.range n).map fun b => if i.testBit b then 1 else -1

/-- Running-minimum update of the exhaustive-search loop:
`if min == None: min = temp_energy; elif min > temp_energy: min = temp_energy`,
where `e i` is the energy of the `i`-th enumerated configuration. -/
def minUpdate (e : ℕ → ℚ) (o : Option ℚ) (i : ℕ) : Option ℚ :=
  match o with
  | none => some (e i)
  | some mn => if mn > e i then some (e i) else some mn

/-- One iteration of the exhaustive-search loop:
`ising.spins = space[i]`, `temp_energy = ising.energy()`, then the running
minimum update on `min`. -/
def scanStep (p : GeneralizedIsingModel × Option ℚ) (i : ℕ) :
    GeneralizedIsingModel × Option ℚ :=
  let m' := { p.1 with spins := spaceRow p.1.N i }
  let temp := energy m'
  match p.2 with
  | none => (m', some temp)
  | some mn => (m', if mn > temp then some temp else some mn)

/-- The exhaustive ground-state search cell: iterates `i` over
`range(2 ** ising.num_spins)`, overwriting `ising.spins` with `space[i]`,
and maintaining the running minimum `min` (initially `None`); the result is
the final model state together with the minimum energy found. -/
def ground_scan (m : GeneralizedIsingModel) :
    GeneralizedIsingModel × Option ℚ :=
  (List.range (2 ^ m.N)).foldl scanStep (m, none)

lemma scan_foldl (g : GeneralizedIsingModel) (l : List ℕ) :
    ∀ (s : List ℚ) (o : Option ℚ),
      l.foldl scanStep ({ g with spins := s }, o)
        = ({ g with spins := l.foldl (fun _ i => spaceRow g.N i) s },
           l.foldl (minUpdate fun i => energy { g with spins := spaceRow g.N i }) o) := by
  induction l with
  | nil => intro s o; rfl
  | cons a t ih =>
    intro s o
    rw [List.foldl_cons, List.foldl_cons, List.foldl_cons]
    have hstep : scanStep ({ g with spins := s }, o) a
        = ({ g with spins := spaceRow g.N a },
           minUpdate (fun i => energy { g with spins := spaceRow g.N i }) o a) := by
      cases o <;> rfl
    rw [hstep]
    exact ih _ _

lemma spaceRow_last (n : ℕ) : spaceRow n (2 ^ n - 1) = List.replicate n 1 := by
  unfold spaceRow
  apply List.eq_replicate_iff.2
  refine ⟨by simp, ?_⟩
  intro b hb
  rcases List.mem_map.1 hb with ⟨c, hc, rfl⟩
  rw [List.mem_range] at hc
  simp [Nat.testBit_two_pow_sub_one, hc]

lemma ground_scan_state (m : GeneralizedIsingModel) :
    (ground_scan m).1 = { m with spins := spaceRow m.N (2 ^ m.N - 1) } := by
  unfold ground_scan
  rw [show (m, (none : Option ℚ)) = ({ m with spins := m.spins }, none) from rfl,
    scan_foldl]
  have hpos : 0 < 2 ^ m.N := pow_pos (by norm_num) m.N
  have h2 : 2 ^ m.N = (2 ^ m.N - 1) + 1 := by omega
  have hfold : (List.range (2 ^ m.N)).foldl (fun _ i => spaceRow m.N i) m.spins
      = spaceRow m.N (2 ^ m.N - 1) := by
    rw [h2, List.range_succ, List.foldl_append]
    rfl
  rw [hfold]

/-- C10: after the exhaustive ground-state scan completes, the model's
stored spin configuration is exactly the last enumerated assignment --
row `2^N - 1` of `space`, the all-ones vector -- independently of whatever
configuration the model held before the scan (the scan overwrites the
shared spin state and never restores it, and keeps no minimizing
configuration). -/
theorem ground_scan_overwrites_spins (m : GeneralizedIsingModel) :
    (ground_scan m).1.spins = spaceRow m.N (2 ^ m.N - 1)
      ∧ (ground_scan m).1.spins = List.replicate m.N 1 := by
  have h := ground_scan_state m
  constructor
  · rw [h]
  · rw [h, spaceRow_last]

/-- A concrete 1-spin model (`E0 = 0`, `h = [1]`, no couplings) whose unique
ground state is spin `-1`; used to exercise the exhaustive scan. -/
def mScan : GeneralizedIsingModel :=
  { E0 := 0, h := fun _ => 1, J := fun _ _ => 0, K := fun _ _ _ => 0,
    L := fun _ _ _ _ => 0, N := 1, spins := [1] }


/-- C2 counterexample: on `mScan` the exhaustive scan finds the exact
minimum energy `-1`, but the configuration it leaves in the model is the
last enumerated one, whose energy is `1`: no configuration achieving the
minimum is returned or retained by the scan. -/
theorem ground_scan_drops_minimizer_cex :
    (ground_scan mScan).2 = some (-1) ∧ energy (ground_scan mScan).1 = 1 := by
  have he0 : energy { mScan with spins := spaceRow mScan.N 0 } = -1 := by
    rw [energy_eq_sums]
    rw [show spaceRow mScan.N 0 = [-1] from rfl]
    norm_num [energyFormula, spinVal, mScan]
  have he1 : energy { mScan with spins := spaceRow mScan.N 1 } = 1 := by
    rw [energy_eq_sums]
    rw [show spaceRow mScan.N 1 = [1] from rfl]
    norm_num [energyFormula, spinVal, mScan]
  constructor
  · have hgs : (ground_scan mScan).2
        = (List.range (2 ^ mScan.N)).foldl
            (minUpdate fun i => energy { mScan with spins := spaceRow mScan.N i })
            none := by
      unfold ground_scan
      rw [show (mScan, (none : Option ℚ))
            = ({ mScan with spins := mScan.spins }, none) from rfl,
        scan_foldl]
    rw [hgs, show List.range (2 ^ mScan.N) = [0, 1] from rfl,
      List.foldl_cons, List.foldl_cons, List.foldl_nil]
    have h0 : minUpdate (fun i => energy { mScan with spins := spaceRow mScan.N i })
        none 0 = some (-1) := by
      rw [show minUpdate (fun i => energy { mScan with spins := spaceRow mScan.N i })
            none 0 = some (energy { mScan with spins := spaceRow mScan.N 0 }) from rfl,
        he0]
    rw [h0]
    rw [show minUpdate (fun i => energy { mScan with spins := spaceRow mScan.N i })
          (some (-1)) 1
          = if (-1 : ℚ) > energy { mScan with spins := spaceRow mScan.N 1 }
            then some (energy { mScan with spins := spaceRow mScan.N 1 })
            else some (-1) from rfl, he1]
    norm_num
  · rw [ground_scan_state, show (2 : ℕ) ^ mScan.N - 1 = 1 from rfl]
    exact he1

lemma minUpdate_foldl_some (e : ℕ → ℚ) (t : List ℕ) :
    ∀ x : ℚ, ∃ y, t.foldl (minUpdate e) (some x) = some y ∧ y ≤ x
      ∧ (∀ i ∈ t, y ≤ e i) ∧ (y = x ∨ ∃ i ∈ t, y = e i) := by
  induction t with
  | nil =>
    intro x
    exact ⟨x, rfl, le_refl x, by simp, Or.inl rfl⟩
  | cons b t ih =>
    intro x
    obtain ⟨y, hy, hyx, hyall, hymem⟩ := ih (if x > e b then e b else x)
    have hmu : minUpdate e (some x) b = some (if x > e b then e b else x) := by
      show (if x > e b then some (e b) else some x) = some (if x > e b then e b else x)
      split_ifs <;> rfl
    refine ⟨y, ?_, ?_, ?_, ?_⟩
    · rw [List.foldl_cons, hmu]
      exact hy
    · refine le_trans hyx ?_
      split_ifs with hbx
      · exact le_of_lt hbx
      · exact le_refl x
    · intro i hi
      rcases List.mem_cons.1 hi with rfl | hit
      · refine le_trans hyx ?_
        split_ifs with hbx
        · exact le_refl _
        · exact le_of_not_lt hbx
      · exact hyall i hit
    · rcases hymem with hyx' | ⟨i, hit, hyi⟩
      · by_cases hbx : x > e b
        · right
          exact ⟨b, List.mem_cons_self b t, by rw [hyx', if_pos hbx]⟩
        · left
          rw [hyx', if_neg hbx]
      · right
        exact ⟨i, List.mem_cons_of_mem b hit, hyi⟩

/-- C2 as amended: the exhaustive scan evaluates `energy` on every one of
the `2^N` enumerated assignments and its running minimum is exactly the
minimum of those energies (a deterministic, exact value attained by some
enumerated assignment) -- but it returns only the minimum value; it does
not return or retain a minimizing configuration (see the counterexample
and C10: the model is left holding the last enumerated assignment). -/
theorem ground_scan_min_exact (m : GeneralizedIsingModel) :
    ∃ mn, (ground_scan m).2 = some mn
      ∧ (∀ i, i < 2 ^ m.N → mn ≤ energy { m with spins := spaceRow m.N i })
      ∧ (∃ i, i < 2 ^ m.N ∧ energy { m with spins := spaceRow m.N i } = mn) := by
  have hsnd : (ground_scan m).2
      = (List.range (2 ^ m.N)).foldl
          (minUpdate fun i => energy { m with spins := spaceRow m.N i }) none := by
    unfold ground_scan
    rw [show (m, (none : Option ℚ)) = ({ m with spins := m.spins }, none) from rfl,
      scan_foldl]
  have hne : List.range (2 ^ m.N) ≠ [] := by
    simp [List.range_eq_nil]
  obtain ⟨c, t, hct⟩ := List.exists_cons_of_ne_nil hne
  rw [hct, List.foldl_cons] at hsnd
  obtain ⟨y, hy, hyx, hyall, hymem⟩ :=
    minUpdate_foldl_some (fun i => energy { m with spins := spaceRow m.N i }) t
      (energy { m with spins := spaceRow m.N c })
  refine ⟨y, ?_, ?_, ?_⟩
  · rw [hsnd]
    exact hy
  · intro i hi
    have hmem : i ∈ List.range (2 ^ m.N) := List.mem_range.2 hi
    rw [hct] at hmem
    rcases List.mem_cons.1 hmem with rfl | hit
    · exact hyx
    · exact hyall i hit
  · rcases hymem with hyc | ⟨i, hit, hyi⟩
    · refine ⟨c, ?_, hyc.symm⟩
      apply List.mem_range.1
      rw [hct]
      exact List.mem_cons_self c t
    · refine ⟨i, ?_, hyi.symm⟩
      apply List.mem_range.1
      rw [hct]
      exact List.mem_cons_of_mem c hit

/-- Witness for the amended C2 at the concrete model `mScan`. -/
theorem ground_scan_min_exact_witness :
    ∃ mn, (ground_scan mScan).2 = some mn
      ∧ (∀ i, i < 2 ^ mScan.N → mn ≤ energy { mScan with spins := spaceRow mScan.N i })
      ∧ (∃ i, i < 2 ^ mScan.N ∧ energy { mScan with spins := spaceRow mScan.N i } = mn) :=
  ground_scan_min_exact mScan

/-- C5: the bit-trick enumeration is total (every counter yields a row of
exactly `N` spins, `+1` where the bit is set and `-1` where it is clear)
and injective over the `2^N` counters: distinct counters below `2^N` yield
distinct spin configurations, so every configuration in `{-1,+1}^N` is
enumerated exactly once. -/
theorem spaceRow_total_injective (n i j : ℕ) (hi : i < 2 ^ n) (hj : j < 2 ^ n)
    (hrow : spaceRow n i = spaceRow n j) : i = j ∧ (spaceRow n i).length = n := by
  constructor
  · apply Nat.eq_of_testBit_eq
    intro b
    by_cases hb : b < n
    · have h1 : (spaceRow n i)[b]? = some (if i.testBit b then (1 : ℚ) else -1) := by
        unfold spaceRow
        rw [List.getElem?_map, List.getElem?_range hb]
        rfl
      have h2 : (spaceRow n j)[b]? = some (if j.testBit b then (1 : ℚ) else -1) := by
        unfold spaceRow
        rw [List.getElem?_map, List.getElem?_range hb]
        rfl
      rw [hrow, h2] at h1
      have h3 : (if j.testBit b then (1 : ℚ) else -1)
          = (if i.testBit b then (1 : ℚ) else -1) := Option.some.inj h1
      by_cases hib : i.testBit b <;> by_cases hjb : j.testBit b <;>
        simp [hib, hjb] at h3 ⊢ <;> norm_num at h3
    · push_neg at hb
      have hle : 2 ^ n ≤ 2 ^ b := Nat.pow_le_pow_right (by norm_num) hb
      rw [Nat.testBit_eq_false_of_lt (lt_of_lt_of_le hi hle),
        Nat.testBit_eq_false_of_lt (lt_of_lt_of_le hj hle)]
  · unfold spaceRow
    simp

/-- Witness for C5 at `n = 2`, counters `3` and `3`. -/
theorem spaceRow_total_injective_witness :
    (3 : ℕ) = 3 ∧ (spaceRow 2 3).length = 2 :=
  spaceRow_total_injective 2 3 3 (by norm_num) (by norm_num) rfl

/-- The exponential annealing schedule of the source,
`T_exp = T_i * ((T_f/T_i) ** (t/N))` with `N` the number of steps:
the temperature used at step `t`. -/
noncomputable def T_exp (T_i T_f : ℝ) (n : ℕ) (t : ℕ) : ℝ :=
  T_i * (T_f / T_i) ^ ((t : ℝ) / (n : ℝ))

/-- C6: for `0 < T_f < T_i` and a positive number of steps `n`, the
exponential schedule starts exactly at `T_i`, is strictly decreasing in the
step index, and at the last step `n - 1` is still strictly above `T_f`. -/
theorem T_exp_schedule_bounds (T_i T_f : ℝ) (n : ℕ)
    (hf : 0 < T_f) (hlt : T_f < T_i) (hn : 0 < n) :
    T_exp T_i T_f n 0 = T_i
      ∧ (∀ t u : ℕ, t < u → T_exp T_i T_f n u < T_exp T_i T_f n t)
      ∧ T_f < T_exp T_i T_f n (n - 1) := by
  have hi : 0 < T_i := hf.trans hlt
  have hbase : 0 < T_f / T_i := div_pos hf hi
  have hbase1 : T_f / T_i < 1 := (div_lt_one hi).2 hlt
  have hnR : 0 < (n : ℝ) := by exact_mod_cast hn
  refine ⟨?_, ?_, ?_⟩
  · unfold T_exp
    rw [Nat.cast_zero, zero_div, Real.rpow_zero, mul_one]
  · intro t u htu
    unfold T_exp
    have hexp : (t : ℝ) / (n : ℝ) < (u : ℝ) / (n : ℝ) := by
      gcongr
    exact mul_lt_mul_of_pos_left
      (Real.rpow_lt_rpow_of_exponent_gt hbase hbase1 hexp) hi
  · unfold T_exp
    have h1 : ((n - 1 : ℕ) : ℝ) / (n : ℝ) < 1 := by
      rw [div_lt_one hnR]
      have : ((n - 1 : ℕ) : ℝ) = (n : ℝ) - 1 := by
        rw [Nat.cast_sub hn, Nat.cast_one]
      rw [this]
      linarith
    have h2 : (T_f / T_i) ^ (1 : ℝ) < (T_f / T_i) ^ (((n - 1 : ℕ) : ℝ) / (n : ℝ)) :=
      Real.rpow_lt_rpow_of_exponent_gt hbase hbase1 h1
    have h3 : T_i * (T_f / T_i) ^ (1 : ℝ) = T_f := by
      rw [Real.rpow_one, mul_div_assoc']
      exact mul_div_cancel_left₀ T_f (ne_of_gt hi)
    calc T_f = T_i * (T_f / T_i) ^ (1 : ℝ) := h3.symm
      _ < T_i * (T_f / T_i) ^ (((n - 1 : ℕ) : ℝ) / (n : ℝ)) :=
        mul_lt_mul_of_pos_left h2 hi

/-- Witness for C6 at the source's parameters `T_i = 100`, `T_f = 0.01`,
`num_steps = 2000`. -/
theorem T_exp_schedule_bounds_witness :
    T_exp 100 (1 / 100) 2000 0 = 100
      ∧ (1 / 100 : ℝ) < T_exp 100 (1 / 100) 2000 1999 :=
  ⟨(T_exp_schedule_bounds 100 (1 / 100) 2000 (by norm_num) (by norm_num)
      (by norm_num)).1,
   (T_exp_schedule_bounds 100 (1 / 100) 2000 (by norm_num) (by norm_num)
      (by norm_num)).2.2⟩

lemma getD_map_neg (l : List ℚ) (i : ℕ) :
    (l.map fun x => -x).getD i 0 = -(l.getD i 0) := by
  induction l generalizing i with
  | nil => simp
  | cons a t ih =>
    cases i with
    | zero => rfl
    | succ q => simpa using ih q

/-- C7: if the 1-body tensor `h` and 3-body tensor `K` vanish on all indices
below `N` (only the even-body terms `E0`, `J`, `L` are present), the energy
of any spin configuration equals the energy of the globally negated
configuration. -/
theorem energy_global_flip_symm (m : GeneralizedIsingModel)
    (hh : ∀ i, i < m.N → m.h i = 0)
    (hK : ∀ i j k, i < m.N → j < m.N → k < m.N → m.K i j k = 0) :
    energy m = energy { m with spins := m.spins.map fun x => -x } := by
  rw [energy_eq_sums, energy_eq_sums]
  unfold energyFormula
  have hs : ∀ t, spinVal { m with spins := m.spins.map fun x => -x } t
      = -spinVal m t := by
    intro t
    unfold spinVal
    exact getD_map_neg m.spins t
  simp only [hs]
  have hS1 : ∑ i in Finset.range m.N, m.h i * -spinVal m i
      = ∑ i in Finset.range m.N, m.h i * spinVal m i := by
    apply Finset.sum_congr rfl
    intro i hi
    rw [hh i (Finset.mem_range.1 hi)]
    ring
  have hS2 : ∑ i in Finset.range m.N, ∑ j in Finset.range m.N,
        m.J i j * (-spinVal m i * -spinVal m j)
      = ∑ i in Finset.range m.N, ∑ j in Finset.range m.N,
        m.J i j * (spinVal m i * spinVal m j) := by
    apply Finset.sum_congr rfl
    intro i _
    apply Finset.sum_congr rfl
    intro j _
    ring
  have hS3 : ∑ i in Finset.range m.N, ∑ j in Finset.range m.N,
        ∑ k in Finset.range m.N,
        m.K i j k * (-spinVal m i * -spinVal m j * -spinVal m k)
      = ∑ i in Finset.range m.N, ∑ j in Finset.range m.N,
        ∑ k in Finset.range m.N,
        m.K i j k * (spinVal m i * spinVal m j * spinVal m k) := by
    apply Finset.sum_congr rfl
    intro i hi
    apply Finset.sum_congr rfl
    intro j hj
    apply Finset.sum_congr rfl
    intro k hk
    rw [hK i j k (Finset.mem_range.1 hi) (Finset.mem_range.1 hj)
      (Finset.mem_range.1 hk)]
    ring
  have hS4 : ∑ i in Finset.range m.N, ∑ j in Finset.range m.N,
        ∑ k in Finset.range m.N, ∑ l in Finset.range m.N,
        m.L i j k l * (-spinVal m i * -spinVal m j * -spinVal m k * -spinVal m l)
      = ∑ i in Finset.range m.N, ∑ j in Finset.range m.N,
        ∑ k in Finset.range m.N, ∑ l in Finset.range m.N,
        m.L i j k l * (spinVal m i * spinVal m j * spinVal m k * spinVal m l) := by
    apply Finset.sum_congr rfl
    intro i _
    apply Finset.sum_congr rfl
    intro j _
    apply Finset.sum_congr rfl
    intro k _
    apply Finset.sum_congr rfl
    intro l _
    ring
  rw [hS1, hS2, hS3, hS4]

/-- Witness for C7 at a concrete 2-spin model with only `E0`, `J` and `L`
terms. -/
theorem energy_global_flip_symm_witness :
    ∃ m : GeneralizedIsingModel,
      (∀ i, i < m.N → m.h i = 0)
        ∧ (∀ i j k, i < m.N → j < m.N → k < m.N → m.K i j k = 0)
        ∧ energy m = energy { m with spins := m.spins.map fun x => -x } := by
  refine ⟨{ E0 := 2, h := fun _ => 0, J := fun i j => (i : ℚ) + (j : ℚ) + 1,
            K := fun _ _ _ => 0, L := fun _ _ _ _ => 1, N := 2,
            spins := [1, -1] }, fun i _ => rfl, fun i j k _ _ _ => rfl, ?_⟩
  exact energy_global_flip_symm _ (fun i _ => rfl) (fun i j k _ _ _ => rfl)
